import Mathlib

/-!
Shallow embedding of the `pool` package: a bounded channel-based pool of
connection holders (`channelPool` in the source), together with proofs of
the specification's claims about it.

Modelling choices, each tied to the Go source:

* A `ConnectionHolder` is a heap object `{Conn, InUse}` reached through a
  pointer.  We model the heap by giving every holder a numeric identity
  (its creation index during prefill) and keeping the two mutable fields
  in the pool state: `inUse : Nat → Bool` for the `InUse` flags and
  `payload : List α` for the immutable `Conn` payloads (`payload[h]` is
  holder `h`'s `Conn`).
* `c.conns`, a nil-able buffered Go channel of holder pointers, becomes
  `conns : Option (List Nat)` (front of the list = receive end) together
  with `chanClosed : Bool` recording whether `close(c.conns)` was ever
  executed on the underlying channel.  `none` models the nil reference
  that `Close` installs.
* The Go factory `func() (GenericConn, error)` is a possibly stateful,
  possibly failing closure; we model it as `Nat → Except String α`, the
  argument being the invocation count.
* A receive on an open empty channel blocks; a receive on a closed empty
  channel yields the zero value (`nil`, hence `conn == nil` in `Get`); a
  send on a full channel blocks; a send on a closed channel panics.  The
  outcome types below have explicit constructors for each of these.
* `GetWithTimeout` races the receive against a timer; `timerFired` says
  whether the timer had already fired when the `select` chose a case
  (for a positive timeout and a non-empty buffer this is `false`, since
  the receive is immediately ready and the timer is not).
-/

namespace PoolModel

/-- Errors returned by the pool, from `pool.go` and `Put`:
`ErrClosed = "pool is closed"`, `ErrTimedOut = "timed out waiting for
connection"`, and `Put`'s `"connection is nil. rejecting"`. -/
inductive PoolErr where
  | errClosed
  | errTimedOut
  | connNil
  deriving DecidableEq, Repr

/-- State of a `channelPool` value plus the heap cells of its holders.
`maxCap` is the `maxCap` field; `factoryNil` records that `Close` set the
`factory` field to nil. -/
structure ChannelPool (α : Type) where
  conns : Option (List Nat)
  chanClosed : Bool
  factoryNil : Bool
  maxCap : Nat
  inUse : Nat → Bool
  payload : List α

/-- Conn of holder `h`: the immutable payload stored at creation. -/
def ChannelPool.connOf {α : Type} (p : ChannelPool α) (h : Nat) : Option α :=
  p.payload.get? h

/-- The prefill loop of `NewChannelPool`: invoke the factory for
invocations `i, i+1, ..., i+n-1`; on the first failure wrap the factory
error with the prefill context and abort, otherwise collect the produced
connections in order. -/
def fillFrom {α : Type} (factory : Nat → Except String α) : Nat → Nat → Except String (List α)
  | _, 0 => Except.ok []
  | i, n + 1 =>
    match factory i with
    | Except.error e => Except.error ("factory is not able to fill the pool: " ++ e)
    | Except.ok c =>
      match fillFrom factory (i + 1) n with
      | Except.error e => Except.error e
      | Except.ok cs => Except.ok (c :: cs)

/-- Constructor `NewChannelPool(maxCap, factory)`: allocate a buffered channel of
capacity `maxCap`, invoke the factory `maxCap` times sending a fresh
holder (with `InUse` false) into the channel each time; fail as a whole
on the first factory error. Holder `i` is the one made by invocation `i`,
so the initial queue is `[0, ..., maxCap-1]`. -/
def NewChannelPool {α : Type} (maxCap : Nat) (factory : Nat → Except String α) :
    Except String (ChannelPool α) :=
  match fillFrom factory 0 maxCap with
  | Except.error e => Except.error e
  | Except.ok cs =>
    Except.ok
      { conns := some (List.range maxCap)
        chanClosed := false
        factoryNil := false
        maxCap := maxCap
        inUse := fun _ => false
        payload := cs }

/-- Result of `Get`/`GetWithTimeout`: a holder pointer, an error, or the
caller blocks forever on the receive. -/
inductive GetOutcome where
  | ok (h : Nat)
  | err (e : PoolErr)
  | blocked
  deriving DecidableEq, Repr

/-- Method `Get()`: nil channel check, then a bare `select` with a single
receive. A receive on an open empty channel blocks; on a closed channel
it yields nil once drained, which `Get` maps to `ErrClosed`; otherwise
the received holder has `InUse` set to true and is returned. -/
def ChannelPool.get {α : Type} (p : ChannelPool α) : GetOutcome × ChannelPool α :=
  match p.conns with
  | none => (GetOutcome.err PoolErr.errClosed, p)
  | some [] =>
    if p.chanClosed then (GetOutcome.err PoolErr.errClosed, p)
    else (GetOutcome.blocked, p)
  | some (h :: rest) =>
    (GetOutcome.ok h,
      { p with conns := some rest, inUse := Function.update p.inUse h true })

/-- Method `GetWithTimeout(timeout)`: like `Get` but the `select` races the
receive against `timer.C`. `timerFired` tells whether the timer case was
already ready when the `select` committed; with an empty open buffer no
receive can be ready, so the call ends in `ErrTimedOut` once the timer
fires. -/
def ChannelPool.getWithTimeout {α : Type} (p : ChannelPool α) (timerFired : Bool) :
    GetOutcome × ChannelPool α :=
  match p.conns with
  | none => (GetOutcome.err PoolErr.errClosed, p)
  | some [] =>
    if p.chanClosed then (GetOutcome.err PoolErr.errClosed, p)
    else (GetOutcome.err PoolErr.errTimedOut, p)
  | some (h :: rest) =>
    if timerFired then (GetOutcome.err PoolErr.errTimedOut, p)
    else
      (GetOutcome.ok h,
        { p with conns := some rest, inUse := Function.update p.inUse h true })

/-- Result of `Put`: `ok` is the successful enqueue returning nil,
`noop` is the early `return nil` (closed pool or `InUse` false),
`errNil` the rejection of a nil holder, `blocked` a send on a full
buffer, `panicked` a send on a closed channel. -/
inductive PutOutcome where
  | ok
  | noop
  | errNil
  | blocked
  | panicked
  deriving DecidableEq, Repr

/-- Method `Put(conn)`: reject nil; no-op when the pool is closed or the
holder's `InUse` flag is false; otherwise send the holder back into the
channel (the send blocks on a full buffer and panics on a closed
channel) and clear `InUse`. -/
def ChannelPool.put {α : Type} (p : ChannelPool α) (conn : Option Nat) :
    PutOutcome × ChannelPool α :=
  match conn with
  | none => (PutOutcome.errNil, p)
  | some h =>
    match p.conns with
    | none => (PutOutcome.noop, p)
    | some q =>
      if p.inUse h = false then (PutOutcome.noop, p)
      else if p.chanClosed then (PutOutcome.panicked, p)
      else if q.length < p.maxCap then
        (PutOutcome.ok,
          { p with conns := some (q ++ [h]), inUse := Function.update p.inUse h false })
      else (PutOutcome.blocked, p)

/-- Method `Len()`: `len(c.conns)`; the length of a nil channel is 0. -/
def ChannelPool.len {α : Type} (p : ChannelPool α) : Nat :=
  match p.conns with
  | none => 0
  | some q => q.length

/-- Method `Close()`: when the channel is non-nil and non-empty, receive one
holder (`_, isPoolOpen := <-c.conns`) — a receive from a non-empty
buffer always delivers a value with `ok == true`, so `isPoolOpen` is
true and the `close(c.conns)` in the `!isPoolOpen` branch is never
executed; then both the channel and factory fields are set to nil. -/
def ChannelPool.close {α : Type} (p : ChannelPool α) : ChannelPool α :=
  let p1 :=
    match p.conns with
    | some (_ :: rest) =>
      let isPoolOpen : Bool := true
      let p' := { p with conns := some rest }
      if isPoolOpen then p' else { p' with chanClosed := true }
    | _ => p
  { p1 with conns := none, factoryNil := true }

/-- One pool operation while the pool stays open: a blocking `Get`, a
`GetWithTimeout` (with the timer race resolved by `timerFired`), or a
`Put` of a (possibly nil) holder pointer. -/
inductive Op where
  | get
  | getTO (timerFired : Bool)
  | put (conn : Option Nat)
  deriving DecidableEq, Repr

/-- State transformation of one operation (its returned value dropped). -/
def applyOp {α : Type} (p : ChannelPool α) : Op → ChannelPool α
  | Op.get => p.get.2
  | Op.getTO b => (p.getWithTimeout b).2
  | Op.put c => (p.put c).2

/-- State after a sequence of operations, first operation first. -/
def applyOps {α : Type} (p : ChannelPool α) (ops : List Op) : ChannelPool α :=
  ops.foldl applyOp p

/-- Number of holders of this pool currently checked out: created during
prefill (identity below `maxCap`) and with `InUse` still true. -/
def outstanding {α : Type} (p : ChannelPool α) : Nat :=
  (List.range p.maxCap).countP (fun h => p.inUse h)

/-- The pool's structural invariant while open: the channel is non-nil
and was never closed, the queue holds no duplicate pointers, the queue
holds exactly the prefill holders whose `InUse` flag is false, and every
holder with `InUse` true is a prefill holder. -/
def Inv {α : Type} (p : ChannelPool α) : Prop :=
  p.chanClosed = false ∧
    ∃ q, p.conns = some q ∧ q.Nodup ∧
      (∀ h, h ∈ q ↔ (h < p.maxCap ∧ p.inUse h = false)) ∧
      (∀ h, p.inUse h = true → h < p.maxCap)

/-- The concrete pool `NewChannelPool 1 (fun i => Except.ok i)` builds:
one free holder `0` with payload `0`. -/
def poolOne : ChannelPool Nat :=
  { conns := some [0]
    chanClosed := false
    factoryNil := false
    maxCap := 1
    inUse := fun _ => false
    payload := [0] }

/-- Pool `poolOne` after its single handle has been checked out: empty free
queue, holder `0` marked in use. -/
def poolOneHeld : ChannelPool Nat := poolOne.get.2

/-- The concrete pool `NewChannelPool 2 (fun i => Except.ok i)` builds. -/
def poolTwo : ChannelPool Nat :=
  { conns := some [0, 1]
    chanClosed := false
    factoryNil := false
    maxCap := 2
    inUse := fun _ => false
    payload := [0, 1] }

theorem countP_bool_split {α : Type} (l : List α) (f : α → Bool) :
    l.countP f + l.countP (fun a => !(f a)) = l.length := by
  induction l with
  | nil => simp
  | cons a t ih =>
    cases h : f a <;> simp [List.countP_cons, h] <;> omega

/-- Under the invariant, queue length plus outstanding equals capacity. -/
theorem Inv.len_add_outstanding {α : Type} {p : ChannelPool α} (hp : Inv p) :
    p.len + outstanding p = p.maxCap := by
  obtain ⟨-, q, hq, hnd, hmem, -⟩ := hp
  have hql : q.length = ((List.range p.maxCap).filter (fun h => !(p.inUse h))).length := by
    apply List.Perm.length_eq
    rw [List.perm_ext_iff_of_nodup hnd (List.Nodup.filter _ (List.nodup_range _))]
    intro a
    rw [List.mem_filter, List.mem_range, hmem a]
    simp
  have hsplit := countP_bool_split (List.range p.maxCap) (fun h => p.inUse h)
  rw [List.countP_eq_length_filter, List.countP_eq_length_filter] at hsplit
  simp only [ChannelPool.len, hq, outstanding]
  rw [List.countP_eq_length_filter]
  rw [List.length_range] at hsplit
  omega

theorem Inv.maxCap_pos_of_inUse {α : Type} {p : ChannelPool α} (hp : Inv p)
    {h : Nat} (hu : p.inUse h = true) : outstanding p > 0 := by
  obtain ⟨-, q, hq, hnd, hmem, hbound⟩ := hp
  have hlt := hbound h hu
  have : h ∈ (List.range p.maxCap).filter (fun x => p.inUse x) := by
    rw [List.mem_filter, List.mem_range]
    exact ⟨hlt, by simp [hu]⟩
  unfold outstanding
  rw [List.countP_eq_length_filter]
  exact List.length_pos.mpr (fun hnil => by simp [hnil] at this)

/-- The invariant transfers along a queue pop with an `InUse` update. -/
theorem Inv_pop {α : Type} {p : ChannelPool α} {h : Nat} {rest : List Nat}
    (hcc : p.chanClosed = false) (hnd : (h :: rest).Nodup)
    (hmem : ∀ x, x ∈ h :: rest ↔ (x < p.maxCap ∧ p.inUse x = false))
    (hbound : ∀ x, p.inUse x = true → x < p.maxCap) :
    Inv { p with conns := some rest, inUse := Function.update p.inUse h true } := by
  have hnotmem : h ∉ rest := (List.nodup_cons.mp hnd).1
  refine ⟨hcc, rest, rfl, (List.nodup_cons.mp hnd).2, ?_, ?_⟩
  · intro x
    dsimp only
    constructor
    · intro hx
      have hx' := (hmem x).mp (List.mem_cons_of_mem h hx)
      have hne : x ≠ h := fun he => hnotmem (he ▸ hx)
      rw [Function.update_noteq hne]
      exact hx'
    · rintro ⟨hlt, hfalse⟩
      by_cases he : x = h
      · subst he
        rw [Function.update_same] at hfalse
        exact absurd hfalse (by simp)
      · rw [Function.update_noteq he] at hfalse
        have := (hmem x).mpr ⟨hlt, hfalse⟩
        rcases List.mem_cons.mp this with h1 | h1
        · exact absurd h1 he
        · exact h1
  · intro x hx
    dsimp only at hx ⊢
    by_cases he : x = h
    · subst he
      exact ((hmem x).mp (List.mem_cons_self x rest)).1
    · rw [Function.update_noteq he] at hx
      exact hbound x hx

/-- Operation `Get` preserves the invariant. -/
theorem Inv_get {α : Type} {p : ChannelPool α} (hp : Inv p) : Inv p.get.2 := by
  obtain ⟨hcc, q, hq, hnd, hmem, hbound⟩ := hp
  rcases q with _ | ⟨h, rest⟩
  · have : p.get.2 = p := by simp [ChannelPool.get, hq, hcc]
    rw [this]
    exact ⟨hcc, [], hq, hnd, hmem, hbound⟩
  · have : p.get.2 =
        { p with conns := some rest, inUse := Function.update p.inUse h true } := by
      simp [ChannelPool.get, hq]
    rw [this]
    exact Inv_pop hcc hnd hmem hbound

/-- Operation `GetWithTimeout` preserves the invariant. -/
theorem Inv_getTO {α : Type} {p : ChannelPool α} (hp : Inv p) (b : Bool) :
    Inv (p.getWithTimeout b).2 := by
  obtain ⟨hcc, q, hq, hnd, hmem, hbound⟩ := hp
  rcases q with _ | ⟨h, rest⟩
  · have : (p.getWithTimeout b).2 = p := by
      simp [ChannelPool.getWithTimeout, hq, hcc]
    rw [this]
    exact ⟨hcc, [], hq, hnd, hmem, hbound⟩
  · cases b with
    | true =>
      have : (p.getWithTimeout true).2 = p := by
        simp [ChannelPool.getWithTimeout, hq]
      rw [this]
      exact ⟨hcc, h :: rest, hq, hnd, hmem, hbound⟩
    | false =>
      have : (p.getWithTimeout false).2 =
          { p with conns := some rest, inUse := Function.update p.inUse h true } := by
        simp [ChannelPool.getWithTimeout, hq]
      rw [this]
      exact Inv_pop hcc hnd hmem hbound

/-- Operation `Put` preserves the invariant, whatever the argument (a nil pointer,
a holder of this pool, stray identities). -/
theorem Inv_put {α : Type} {p : ChannelPool α} (hp : Inv p) (c : Option Nat) :
    Inv (p.put c).2 := by
  obtain ⟨hcc, q, hq, hnd, hmem, hbound⟩ := hp
  rcases c with _ | h
  · exact ⟨hcc, q, hq, hnd, hmem, hbound⟩
  · by_cases hu : p.inUse h = false
    · have : (p.put (some h)).2 = p := by simp [ChannelPool.put, hq, hu]
      rw [this]
      exact ⟨hcc, q, hq, hnd, hmem, hbound⟩
    · have hu' : p.inUse h = true := by
        cases hih : p.inUse h
        · exact absurd hih hu
        · rfl
      have hlt : h < p.maxCap := hbound h hu'
      have hnotq : h ∉ q := fun hin => by
        have hfq := ((hmem h).mp hin).2
        rw [hu'] at hfq
        exact Bool.noConfusion hfq
      by_cases hl : q.length < p.maxCap
      · have : (p.put (some h)).2 =
            { p with conns := some (q ++ [h]),
                     inUse := Function.update p.inUse h false } := by
          simp [ChannelPool.put, hq, hu', hcc, hl]
        rw [this]
        refine ⟨hcc, q ++ [h], rfl, ?_, ?_, ?_⟩
        · rw [List.nodup_append]
          refine ⟨hnd, List.nodup_singleton h, ?_⟩
          intro a ha hb
          rw [List.mem_singleton] at hb
          exact hnotq (hb ▸ ha)
        · intro x
          dsimp only
          rw [List.mem_append, List.mem_singleton]
          constructor
          · rintro (hx | rfl)
            · have hx' := (hmem x).mp hx
              have hne : x ≠ h := fun he => hnotq (he ▸ hx)
              rw [Function.update_noteq hne]
              exact hx'
            · rw [Function.update_same]
              exact ⟨hlt, rfl⟩
          · rintro ⟨hxlt, hxfalse⟩
            by_cases he : x = h
            · exact Or.inr he
            · rw [Function.update_noteq he] at hxfalse
              exact Or.inl ((hmem x).mpr ⟨hxlt, hxfalse⟩)
        · intro x hx
          dsimp only at hx
          by_cases he : x = h
          · exact he ▸ hlt
          · rw [Function.update_noteq he] at hx
            exact hbound x hx
      · have : (p.put (some h)).2 = p := by
          simp [ChannelPool.put, hq, hu', hcc, hl]
        rw [this]
        exact ⟨hcc, q, hq, hnd, hmem, hbound⟩

/-- Every operation preserves the invariant. -/
theorem Inv_applyOp {α : Type} {p : ChannelPool α} (hp : Inv p) (op : Op) :
    Inv (applyOp p op) := by
  cases op with
  | get => exact Inv_get hp
  | getTO b => exact Inv_getTO hp b
  | put c => exact Inv_put hp c

/-- A whole operation sequence preserves the invariant. -/
theorem Inv_applyOps {α : Type} {p : ChannelPool α} (hp : Inv p) (ops : List Op) :
    Inv (applyOps p ops) := by
  induction ops generalizing p with
  | nil => exact hp
  | cons op rest ih => exact ih (Inv_applyOp hp op)

/-- A freshly constructed pool satisfies the invariant. -/
theorem Inv_new {α : Type} {maxCap : Nat} {factory : Nat → Except String α}
    {p : ChannelPool α} (hnew : NewChannelPool maxCap factory = Except.ok p) :
    Inv p := by
  unfold NewChannelPool at hnew
  rcases hfill : fillFrom factory 0 maxCap with e | cs
  · rw [hfill] at hnew
    exact absurd hnew (by simp)
  · rw [hfill] at hnew
    simp only [Except.ok.injEq] at hnew
    subst hnew
    refine ⟨rfl, List.range maxCap, rfl, List.nodup_range _, ?_, ?_⟩
    · intro h
      rw [List.mem_range]
      simp
    · intro h hx
      exact absurd hx (by simp)

/-- Stepping with `applyOp` never changes the capacity field. -/
theorem applyOp_maxCap {α : Type} (p : ChannelPool α) (op : Op) :
    (applyOp p op).maxCap = p.maxCap := by
  cases op with
  | get =>
    simp only [applyOp, ChannelPool.get]
    rcases hc : p.conns with _ | q
    · rfl
    · rcases q with _ | ⟨h, rest⟩
      · by_cases hcc : p.chanClosed <;> simp [hcc]
      · rfl
  | getTO b =>
    simp only [applyOp, ChannelPool.getWithTimeout]
    rcases hc : p.conns with _ | q
    · rfl
    · rcases q with _ | ⟨h, rest⟩
      · by_cases hcc : p.chanClosed <;> simp [hcc]
      · by_cases hb : b <;> simp [hb]
  | put c =>
    simp only [applyOp, ChannelPool.put]
    rcases c with _ | h
    · rfl
    · rcases hc : p.conns with _ | q
      · rfl
      · by_cases hu : p.inUse h = false
        · simp [hu]
        · by_cases hcc : p.chanClosed
          · simp [hu, hcc]
          · by_cases hl : q.length < p.maxCap <;> simp [hu, hcc, hl]

/-- When every factory invocation in the window succeeds, the prefill
loop succeeds and collects exactly the factory outputs in order. -/
theorem fillFrom_ok {α : Type} (factory : Nat → Except String α) :
    ∀ (n i : Nat), (∀ k, k < n → ∃ c, factory (i + k) = Except.ok c) →
      ∃ l, fillFrom factory i n = Except.ok l ∧ l.length = n ∧
        ∀ j, j < n → ∃ c, factory (i + j) = Except.ok c ∧ l.get? j = some c := by
  intro n
  induction n with
  | zero =>
    intro i _
    exact ⟨[], rfl, rfl, fun j hj => absurd hj (Nat.not_lt_zero j)⟩
  | succ m ih =>
    intro i hok
    obtain ⟨c, hc⟩ := hok 0 (Nat.succ_pos m)
    rw [Nat.add_zero] at hc
    obtain ⟨l', hl', hlen', hget'⟩ := ih (i + 1) (fun k hk => by
      have := hok (k + 1) (Nat.succ_lt_succ hk)
      rwa [Nat.add_comm k 1, ← Nat.add_assoc] at this)
    refine ⟨c :: l', ?_, by simp [hlen'], ?_⟩
    · simp only [fillFrom, hc, hl']
    · intro j hj
      cases j with
      | zero => exact ⟨c, by rw [Nat.add_zero]; exact hc, rfl⟩
      | succ j' =>
        obtain ⟨c', hc', hg'⟩ := hget' j' (Nat.lt_of_succ_lt_succ hj)
        refine ⟨c', ?_, hg'⟩
        have harith : i + (j' + 1) = i + 1 + j' := by omega
        rw [harith]
        exact hc'

/-- The prefill loop only consults the factory at invocations `i`
through `i+n-1`: two factories that agree there produce the same
result, hence the factory is invoked exactly `n` times. -/
theorem fillFrom_congr {α : Type} (factory g : Nat → Except String α) :
    ∀ (n i : Nat), (∀ k, k < n → g (i + k) = factory (i + k)) →
      fillFrom g i n = fillFrom factory i n := by
  intro n
  induction n with
  | zero => intro i _; rfl
  | succ m ih =>
    intro i hagree
    have h0 : g i = factory i := by
      have := hagree 0 (Nat.succ_pos m)
      rwa [Nat.add_zero] at this
    have hrec : fillFrom g (i + 1) m = fillFrom factory (i + 1) m := by
      apply ih
      intro k hk
      have := hagree (k + 1) (Nat.succ_lt_succ hk)
      rwa [Nat.add_comm k 1, ← Nat.add_assoc] at this
    simp only [fillFrom, h0, hrec]

/-- When the first factory failure happens at invocation `i+j` (all
earlier invocations in the window succeeding), the prefill loop fails
with the factory error wrapped in the prefill context. -/
theorem fillFrom_error {α : Type} (factory : Nat → Except String α) :
    ∀ (j n i : Nat) (e : String), j < n → factory (i + j) = Except.error e →
      (∀ k, k < j → ∃ c, factory (i + k) = Except.ok c) →
      fillFrom factory i n = Except.error ("factory is not able to fill the pool: " ++ e) := by
  intro j
  induction j with
  | zero =>
    intro n i e hj he _
    rw [Nat.add_zero] at he
    cases n with
    | zero => exact absurd hj (Nat.not_lt_zero 0)
    | succ m => simp only [fillFrom, he]
  | succ j' ih =>
    intro n i e hj he hok
    cases n with
    | zero => exact absurd hj (Nat.not_lt_zero _)
    | succ m =>
      obtain ⟨c, hc⟩ := hok 0 (Nat.succ_pos j')
      rw [Nat.add_zero] at hc
      have hrec : fillFrom factory (i + 1) m =
          Except.error ("factory is not able to fill the pool: " ++ e) := by
        apply ih m (i + 1) e (Nat.lt_of_succ_lt_succ hj)
        · rwa [Nat.add_comm j' 1, ← Nat.add_assoc] at he
        · intro k hk
          have := hok (k + 1) (Nat.succ_lt_succ hk)
          rwa [Nat.add_comm k 1, ← Nat.add_assoc] at this
      simp only [fillFrom, hc, hrec]

/-- Stepping with `applyOp` never changes the payloads: no operation reads or writes
a holder's `Conn` field. -/
theorem applyOp_payload {α : Type} (p : ChannelPool α) (op : Op) :
    (applyOp p op).payload = p.payload := by
  cases op with
  | get =>
    simp only [applyOp, ChannelPool.get]
    rcases hc : p.conns with _ | q
    · rfl
    · rcases q with _ | ⟨h, rest⟩
      · by_cases hcc : p.chanClosed <;> simp [hcc]
      · rfl
  | getTO b =>
    simp only [applyOp, ChannelPool.getWithTimeout]
    rcases hc : p.conns with _ | q
    · rfl
    · rcases q with _ | ⟨h, rest⟩
      · by_cases hcc : p.chanClosed <;> simp [hcc]
      · by_cases hb : b <;> simp [hb]
  | put c =>
    simp only [applyOp, ChannelPool.put]
    rcases c with _ | h
    · rfl
    · rcases hc : p.conns with _ | q
      · rfl
      · by_cases hu : p.inUse h = false
        · simp [hu]
        · by_cases hcc : p.chanClosed
          · simp [hu, hcc]
          · by_cases hl : q.length < p.maxCap <;> simp [hu, hcc, hl]

/-- Operation sequences change neither the capacity nor the payloads. -/
theorem applyOps_frame {α : Type} (p : ChannelPool α) (ops : List Op) :
    (applyOps p ops).maxCap = p.maxCap ∧ (applyOps p ops).payload = p.payload := by
  induction ops generalizing p with
  | nil => exact ⟨rfl, rfl⟩
  | cons op rest ih =>
    have h1 := applyOp_maxCap p op
    have h2 := applyOp_payload p op
    have := ih (applyOp p op)
    exact ⟨this.1.trans h1, this.2.trans h2⟩

/-- Operation `Close` changes neither the capacity nor the payloads either. -/
theorem close_frame {α : Type} (p : ChannelPool α) :
    (p.close).maxCap = p.maxCap ∧ (p.close).payload = p.payload := by
  simp only [ChannelPool.close]
  rcases hc : p.conns with _ | q
  · exact ⟨rfl, rfl⟩
  · rcases q with _ | ⟨h, rest⟩ <;> exact ⟨rfl, rfl⟩

/-- Operation `Close` always ends with a nil channel and nil factory, and touches
nothing else (in particular it never marks the underlying channel as
closed: the `close(c.conns)` call sits in an unreachable branch). -/
theorem close_eq {α : Type} (p : ChannelPool α) :
    p.close = { p with conns := none, factoryNil := true } := by
  rcases hc : p.conns with _ | q
  · simp [ChannelPool.close, hc]
  · rcases q with _ | ⟨h, rest⟩ <;> simp [ChannelPool.close, hc]

/-- A closed pool (nil channel) is a fixed point of every operation. -/
theorem applyOp_of_closed {α : Type} {p : ChannelPool α} (hc : p.conns = none)
    (op : Op) : applyOp p op = p := by
  cases op with
  | get => simp [applyOp, ChannelPool.get, hc]
  | getTO b => simp [applyOp, ChannelPool.getWithTimeout, hc]
  | put c =>
    rcases c with _ | h
    · rfl
    · simp [applyOp, ChannelPool.put, hc]

/-- A closed pool stays fixed under any operation sequence. -/
theorem applyOps_of_closed {α : Type} {p : ChannelPool α} (hc : p.conns = none)
    (ops : List Op) : applyOps p ops = p := by
  induction ops with
  | nil => rfl
  | cons op rest ih =>
    show applyOps (applyOp p op) rest = p
    rw [applyOp_of_closed hc op]
    exact ih

/-- What a successful construction yields: full queue `[0..maxCap)`,
open channel, all flags clear, payloads produced by the prefill loop. -/
theorem NewChannelPool_ok {α : Type} {N : Nat} {factory : Nat → Except String α}
    {p : ChannelPool α} (hnew : NewChannelPool N factory = Except.ok p) :
    p.conns = some (List.range N) ∧ p.chanClosed = false ∧ p.maxCap = N ∧
      p.inUse = (fun _ => false) ∧ fillFrom factory 0 N = Except.ok p.payload := by
  unfold NewChannelPool at hnew
  rcases hfill : fillFrom factory 0 N with e | cs
  · rw [hfill] at hnew
    exact absurd hnew (by simp)
  · rw [hfill] at hnew
    simp only [Except.ok.injEq] at hnew
    subst hnew
    exact ⟨rfl, rfl, rfl, rfl, rfl⟩

/-- Eliminating a successful prefill: it produced one connection per
invocation, in invocation order. -/
theorem fillFrom_ok_elim {α : Type} (factory : Nat → Except String α) :
    ∀ (n i : Nat) (l : List α), fillFrom factory i n = Except.ok l →
      l.length = n ∧ ∀ j, j < n → ∃ c, factory (i + j) = Except.ok c ∧ l.get? j = some c := by
  intro n
  induction n with
  | zero =>
    intro i l hl
    simp only [fillFrom, Except.ok.injEq] at hl
    subst hl
    exact ⟨rfl, fun j hj => absurd hj (Nat.not_lt_zero j)⟩
  | succ m ih =>
    intro i l hl
    rcases hfc : factory i with e | c <;> rw [fillFrom, hfc] at hl
    · exact absurd hl (by simp)
    · rcases hrec : fillFrom factory (i + 1) m with e' | l' <;> rw [hrec] at hl
      · exact absurd hl (by simp)
      · simp only [Except.ok.injEq] at hl
        subst hl
        obtain ⟨hlen', hget'⟩ := ih (i + 1) l' hrec
        refine ⟨by simp [hlen'], ?_⟩
        intro j hj
        cases j with
        | zero => exact ⟨c, by rw [Nat.add_zero]; exact hfc, rfl⟩
        | succ j' =>
          obtain ⟨c', hc', hg'⟩ := hget' j' (Nat.lt_of_succ_lt_succ hj)
          refine ⟨c', ?_, hg'⟩
          have harith : i + (j' + 1) = i + 1 + j' := by omega
          rw [harith]
          exact hc'

/-- Claim C1: for every pool constructed by `NewChannelPool` with
capacity `N` and every sequence of `Get`/`GetWithTimeout`/`Put`
operations while the pool is open, the number of free handles in the
queue (`Len()`) plus the number of handles currently checked out and not
yet released equals `N`; a repeated release of the same handle (a `put`
of an already-released holder is one of the operations covered) does not
change this accounting. -/
theorem claim_C1 {α : Type} (N : Nat) (factory : Nat → Except String α)
    (p : ChannelPool α) (hnew : NewChannelPool N factory = Except.ok p)
    (ops : List Op) :
    (applyOps p ops).len + outstanding (applyOps p ops) = N := by
  have hinv := Inv_applyOps (Inv_new hnew) ops
  have hlen := hinv.len_add_outstanding
  rw [(applyOps_frame p ops).1] at hlen
  rw [(NewChannelPool_ok hnew).2.2.1] at hlen
  exact hlen

/-- Witness for C1: a capacity-2 pool, a checkout, a release, a repeated
release of the same handle, a timed-out acquire and another checkout
keep `Len() + outstanding = 2`. -/
theorem claim_C1_witness :
    NewChannelPool 2 (fun i => Except.ok i) = Except.ok poolTwo ∧
      (applyOps poolTwo [Op.get, Op.put (some 0), Op.put (some 0), Op.getTO false, Op.get]).len
        + outstanding (applyOps poolTwo [Op.get, Op.put (some 0), Op.put (some 0), Op.getTO false, Op.get]) = 2 :=
  ⟨rfl, claim_C1 2 (fun i => Except.ok i) poolTwo rfl
    [Op.get, Op.put (some 0), Op.put (some 0), Op.getTO false, Op.get]⟩

/-- Claim C2: after `Close()`, every subsequent `Get` or
`GetWithTimeout` (even after further interleaved operations) returns the
`Closed` error with no handle, `Len()` returns 0, and a second `Close()`
is a no-op leaving the state unchanged. -/
theorem claim_C2 {α : Type} (p : ChannelPool α) (ops : List Op) :
    (applyOps p.close ops).get.1 = GetOutcome.err PoolErr.errClosed ∧
      (∀ b, ((applyOps p.close ops).getWithTimeout b).1 = GetOutcome.err PoolErr.errClosed) ∧
      (applyOps p.close ops).len = 0 ∧
      p.close.close = p.close := by
  have hcn : p.close.conns = none := by rw [close_eq]
  rw [applyOps_of_closed hcn ops]
  refine ⟨?_, ?_, ?_, ?_⟩
  · simp [ChannelPool.get, hcn]
  · intro b
    simp [ChannelPool.getWithTimeout, hcn]
  · simp [ChannelPool.len, hcn]
  · rw [close_eq p, close_eq]

/-- Claim C3 is refuted by the code (code bug): a `Get` blocked on the
empty free queue when `Close` is invoked never terminates.  `Close` only
executes `close(c.conns)` in the unreachable `!isPoolOpen` branch, so
the underlying channel is never closed (last conjunct: for every pool,
`Close` leaves `chanClosed` unchanged); concretely, on a capacity-1 pool
whose handle is checked out, a `Get` blocks, and after `Close` the
channel is still unclosed while every later `Put` no-ops without
sending, so the blocked receive is never woken to observe a closed
state. -/
theorem claim_C3 :
    NewChannelPool 1 (fun i => Except.ok i) = Except.ok poolOne ∧
      poolOne.get.1 = GetOutcome.ok 0 ∧
      poolOneHeld.conns = some [] ∧
      poolOneHeld.chanClosed = false ∧
      poolOneHeld.get.1 = GetOutcome.blocked ∧
      poolOneHeld.close.chanClosed = false ∧
      (poolOneHeld.close.put (some 0)).1 = PutOutcome.noop ∧
      (∀ (β : Type) (q : ChannelPool β), q.close.chanClosed = q.chanClosed) := by
  refine ⟨rfl, rfl, rfl, rfl, rfl, rfl, rfl, ?_⟩
  intro β q
  rw [close_eq]

/-- Claim C4: for every `N ≥ 0` and every factory that always succeeds,
`NewChannelPool N factory` returns a pool without error with
`Len() == N`; the factory is invoked exactly `N` times, all during
construction: holder `i` carries the output of invocation `i`, and the
result depends only on the first `N` invocations. -/
theorem claim_C4 {α : Type} (N : Nat) (factory : Nat → Except String α)
    (hok : ∀ i, ∃ c, factory i = Except.ok c) :
    ∃ p, NewChannelPool N factory = Except.ok p ∧ p.len = N ∧ p.maxCap = N ∧
      (∀ i, i < N → ∃ c, factory i = Except.ok c ∧ p.connOf i = some c) ∧
      (∀ g : Nat → Except String α, (∀ i, i < N → g i = factory i) →
        NewChannelPool N g = NewChannelPool N factory) := by
  obtain ⟨l, hfill, hlen, hget⟩ := fillFrom_ok factory N 0 (fun k _ => by
    rw [Nat.zero_add]
    exact hok k)
  refine ⟨{ conns := some (List.range N)
            chanClosed := false
            factoryNil := false
            maxCap := N
            inUse := fun _ => false
            payload := l }, ?_, ?_, rfl, ?_, ?_⟩
  · unfold NewChannelPool
    rw [hfill]
  · simp [ChannelPool.len]
  · intro i hi
    obtain ⟨c, hc, hg⟩ := hget i hi
    rw [Nat.zero_add] at hc
    exact ⟨c, hc, hg⟩
  · intro g hagree
    unfold NewChannelPool
    rw [fillFrom_congr factory g N 0 (fun k hk => by
      rw [Nat.zero_add]
      exact hagree k hk)]

/-- Witness for C4: capacity 3 with the always-succeeding factory
returning its invocation index. -/
theorem claim_C4_witness :
    ∃ p : ChannelPool Nat,
      NewChannelPool 3 (fun i => Except.ok i) = Except.ok p ∧ p.len = 3 ∧ p.maxCap = 3 ∧
        (∀ i, i < 3 → ∃ c, (Except.ok i : Except String Nat) = Except.ok c ∧ p.connOf i = some c) ∧
        (∀ g : Nat → Except String Nat, (∀ i, i < 3 → g i = Except.ok i) →
          NewChannelPool 3 g = NewChannelPool 3 (fun i => Except.ok i)) :=
  claim_C4 3 (fun i => Except.ok i) (fun i => ⟨i, rfl⟩)

/-- Claim C5: `GetWithTimeout(d)` on an open pool whose free queue is
empty, with no release occurring within `d`, returns the `TimedOut`
error with no handle and unchanged state — whichever way the timer race
resolves, the call does not block. -/
theorem claim_C5 {α : Type} (p : ChannelPool α) (hq : p.conns = some [])
    (hcc : p.chanClosed = false) (b : Bool) :
    p.getWithTimeout b = (GetOutcome.err PoolErr.errTimedOut, p) := by
  simp [ChannelPool.getWithTimeout, hq, hcc]

/-- Witness for C5: the capacity-1 pool with its handle checked out. -/
theorem claim_C5_witness :
    poolOneHeld.getWithTimeout true = (GetOutcome.err PoolErr.errTimedOut, poolOneHeld) ∧
      poolOneHeld.getWithTimeout false = (GetOutcome.err PoolErr.errTimedOut, poolOneHeld) :=
  ⟨claim_C5 poolOneHeld rfl rfl true, claim_C5 poolOneHeld rfl rfl false⟩

/-- Claim C6: whenever the free queue is non-empty and the pool is open,
`Get` (and `GetWithTimeout` whose timer has not fired) succeeds by
removing the head handle from the free queue and setting its `InUse`
flag to true before returning it, so the returned handle is marked
in-use and `Len()` decreases by one. -/
theorem claim_C6 {α : Type} (p : ChannelPool α) (h : Nat) (rest : List Nat)
    (hq : p.conns = some (h :: rest)) :
    p.get.1 = GetOutcome.ok h ∧ p.get.2.inUse h = true ∧
      p.get.2.conns = some rest ∧ p.get.2.len + 1 = p.len ∧
      p.getWithTimeout false = p.get := by
  refine ⟨?_, ?_, ?_, ?_, ?_⟩ <;>
    simp [ChannelPool.get, ChannelPool.getWithTimeout, ChannelPool.len, hq]

/-- Witness for C6: the fresh capacity-2 pool hands out holder 0. -/
theorem claim_C6_witness :
    poolTwo.get.1 = GetOutcome.ok 0 ∧ poolTwo.get.2.inUse 0 = true ∧
      poolTwo.get.2.conns = some [1] ∧ poolTwo.get.2.len + 1 = poolTwo.len ∧
      poolTwo.getWithTimeout false = poolTwo.get :=
  claim_C6 poolTwo 0 [1] rfl

/-- Claim C7: releasing the same handle twice in a row is idempotent:
on an open pool with room in the queue, the first `Put` re-enqueues the
handle and clears its `InUse` flag, and the second `Put` of the same
handle is a no-op returning no error that leaves the state (hence
`Len()` and the queue contents) unchanged. -/
theorem claim_C7 {α : Type} (p : ChannelPool α) (h : Nat) (q : List Nat)
    (hq : p.conns = some q) (hcc : p.chanClosed = false)
    (hu : p.inUse h = true) (hl : q.length < p.maxCap) :
    (p.put (some h)).1 = PutOutcome.ok ∧
      (p.put (some h)).2.conns = some (q ++ [h]) ∧
      (p.put (some h)).2.inUse h = false ∧
      (p.put (some h)).2.put (some h) = (PutOutcome.noop, (p.put (some h)).2) := by
  have hstep : p.put (some h) =
      (PutOutcome.ok,
        { p with conns := some (q ++ [h]), inUse := Function.update p.inUse h false }) := by
    simp [ChannelPool.put, hq, hu, hcc, hl]
  rw [hstep]
  refine ⟨rfl, rfl, by simp, ?_⟩
  simp [ChannelPool.put]

/-- Witness for C7: put the held handle of the capacity-1 pool back
twice; the second release is a no-op. -/
theorem claim_C7_witness :
    (poolOneHeld.put (some 0)).1 = PutOutcome.ok ∧
      (poolOneHeld.put (some 0)).2.conns = some ([] ++ [0]) ∧
      (poolOneHeld.put (some 0)).2.inUse 0 = false ∧
      (poolOneHeld.put (some 0)).2.put (some 0) = (PutOutcome.noop, (poolOneHeld.put (some 0)).2) :=
  claim_C7 poolOneHeld 0 [] rfl rfl (by decide) (by decide)

/-- Claim C8: if a factory invocation during construction fails (the
first failure at invocation `i`), `NewChannelPool` fails as a whole,
returning no pool and the underlying factory error wrapped with the
prefill context. -/
theorem claim_C8 {α : Type} (N : Nat) (factory : Nat → Except String α)
    (i : Nat) (e : String) (hi : i < N) (he : factory i = Except.error e)
    (hok : ∀ j, j < i → ∃ c, factory j = Except.ok c) :
    NewChannelPool N factory = Except.error ("factory is not able to fill the pool: " ++ e) := by
  have hfill := fillFrom_error factory i N 0 e hi
    (by rw [Nat.zero_add]; exact he)
    (fun k hk => by rw [Nat.zero_add]; exact hok k hk)
  unfold NewChannelPool
  rw [hfill]

/-- Witness for C8: capacity 2 with a factory failing on its second
invocation. -/
theorem claim_C8_witness :
    NewChannelPool 2
        (fun i => if i = 0 then (Except.ok 7 : Except String Nat) else Except.error ("boom"))
      = Except.error ("factory is not able to fill the pool: " ++ "boom") :=
  claim_C8 2 (fun i => if i = 0 then (Except.ok 7 : Except String Nat) else Except.error ("boom"))
    1 ("boom") (by decide) rfl
    (fun j hj => ⟨7, by
      have hj0 : j = 0 := Nat.lt_one_iff.mp hj
      subst hj0
      rfl⟩)

/-- Claim C9: under correct usage — the pool satisfies its open-state
invariant and the argument handle is a non-nil holder with `InUse` true
(hence obtained from this pool, by the invariant) — `Put` never reaches
the blocking branch of the send: the queue cannot be full, and the call
returns from the successful enqueue. -/
theorem claim_C9 {α : Type} {p : ChannelPool α} (hp : Inv p) {h : Nat}
    (hu : p.inUse h = true) :
    (p.put (some h)).1 = PutOutcome.ok ∧ (p.put (some h)).1 ≠ PutOutcome.blocked := by
  have hout : outstanding p > 0 := hp.maxCap_pos_of_inUse hu
  have hlen := hp.len_add_outstanding
  obtain ⟨hcc, q, hq, hnd, hmem, hbound⟩ := hp
  have hql : q.length < p.maxCap := by
    simp only [ChannelPool.len, hq] at hlen
    omega
  have hok : (p.put (some h)).1 = PutOutcome.ok := by
    simp [ChannelPool.put, hq, hu, hcc, hql]
  refine ⟨hok, ?_⟩
  rw [hok]
  intro hcon
  exact PutOutcome.noConfusion hcon

/-- Witness for C9: the held handle of the capacity-1 pool; its release
enqueues without blocking. -/
theorem claim_C9_witness :
    (poolOneHeld.put (some 0)).1 = PutOutcome.ok ∧
      (poolOneHeld.put (some 0)).1 ≠ PutOutcome.blocked :=
  claim_C9
    (by
      refine ⟨rfl, [], rfl, List.nodup_nil, ?_, ?_⟩
      · intro x
        constructor
        · intro hx
          exact absurd hx (List.not_mem_nil x)
        · rintro ⟨hlt, hf⟩
          have hx0 : x = 0 := Nat.lt_one_iff.mp hlt
          subst hx0
          simp [poolOneHeld, poolOne, ChannelPool.get] at hf
      · intro x hx
        by_cases he : x = 0
        · subst he
          exact Nat.zero_lt_one
        · exfalso
          simp [poolOneHeld, poolOne, ChannelPool.get, Function.update_noteq he] at hx)
    (by decide)

/-- Claim C10: no pool operation (`Get`, `GetWithTimeout`, `Put`, `Len`,
`Close`) ever writes a handle's `Conn` payload: after any sequence of
acquires and releases (and a final `Close`), the payloads and the
capacity are unchanged, and each handle's `Conn` is exactly the value
the factory produced for it at construction. (`Len` is state-free by
definition, so only the state-changing operations appear.) -/
theorem claim_C10 {α : Type} (N : Nat) (factory : Nat → Except String α)
    (p : ChannelPool α) (hnew : NewChannelPool N factory = Except.ok p)
    (ops : List Op) :
    (applyOps p ops).payload = p.payload ∧
      (applyOps p ops).close.payload = p.payload ∧
      (applyOps p ops).maxCap = p.maxCap ∧
      (∀ i, i < N → ∃ c, factory i = Except.ok c ∧ (applyOps p ops).connOf i = some c) := by
  obtain ⟨hconns, hcc, hcap, hflags, hfill⟩ := NewChannelPool_ok hnew
  obtain ⟨hplen, hpget⟩ := fillFrom_ok_elim factory N 0 p.payload hfill
  have hframe := applyOps_frame p ops
  refine ⟨hframe.2, ?_, hframe.1, ?_⟩
  · rw [(close_frame _).2, hframe.2]
  · intro i hi
    obtain ⟨c, hc, hg⟩ := hpget i hi
    rw [Nat.zero_add] at hc
    refine ⟨c, hc, ?_⟩
    unfold ChannelPool.connOf
    rw [hframe.2]
    exact hg

/-- Witness for C10: on the capacity-2 pool, a checkout and release
leave both payloads exactly as the factory produced them. -/
theorem claim_C10_witness :
    NewChannelPool 2 (fun i => Except.ok i) = Except.ok poolTwo ∧
      ((applyOps poolTwo [Op.get, Op.put (some 0)]).payload = poolTwo.payload ∧
        (applyOps poolTwo [Op.get, Op.put (some 0)]).close.payload = poolTwo.payload ∧
        (applyOps poolTwo [Op.get, Op.put (some 0)]).maxCap = poolTwo.maxCap ∧
        (∀ i, i < 2 → ∃ c, (Except.ok i : Except String Nat) = Except.ok c ∧
          (applyOps poolTwo [Op.get, Op.put (some 0)]).connOf i = some c)) :=
  ⟨rfl, claim_C10 2 (fun i => Except.ok i) poolTwo rfl [Op.get, Op.put (some 0)]⟩

end PoolModel
